import Mathlib

/-!
Verification of the Infeasible Path-Following interior point method
`lp::primal::IPF` from src/optimization/LP/primal/IPM/IPF.cpp.

The four overloads (dense-serial, dense-distributed, sparse-serial,
sparse-distributed) share one iteration skeleton; the dense overloads are
line-for-line identical up to the distribution layer, which the spec treats
as exact collective primitives.  We embed the shared skeleton once, over
exact rational arithmetic (the `Real` template parameter of the source,
idealized to exact arithmetic as the specification's equivalence and
round-trip properties demand).  Euclidean norms are embedded as real square
roots of rational sums of squares.

Stateful iteration is embedded as a big-step relation on the iterate;
the external collaborators that are declared but not part of the provided
sources (the KKT builders and solution expanders of util.hpp, the
initializer, and the line search) are modelled from the specification and
marked as such in their doc comments.
-/

namespace ElementalIPF

/-- Column vectors of length `k`, with exact rational entries. -/
abbrev Vec (k : ℕ) := Fin k → ℚ

/-- `Dot(u,v)`: the Euclidean inner product used throughout IPF.cpp. -/
def dotV {k : ℕ} (u v : Vec k) : ℚ :=
  ∑ i, u i * v i

/-- `Gemv(NORMAL, 1, A, v, ...)` applied to a zero accumulator: `A v`. -/
def mulVecQ {m n : ℕ} (A : Matrix (Fin m) (Fin n) ℚ) (v : Vec n) : Vec m :=
  fun i => ∑ j, A i j * v j

/-- `Gemv(TRANSPOSE, 1, A, u, ...)` applied to a zero accumulator: `Aᵀ u`. -/
def tmulVecQ {m n : ℕ} (A : Matrix (Fin m) (Fin n) ℚ) (u : Vec m) : Vec n :=
  fun j => ∑ i, A i j * u i

/-- Sum of squared entries of a vector (the radicand of `Nrm2`). -/
def nrm2Sq {k : ℕ} (u : Vec k) : ℚ :=
  ∑ i, u i * u i

/-- `Nrm2(u)`: the Euclidean norm, a real number.  The radicand is the
computable rational `nrm2Sq`; only the square root itself lives in `ℝ`. -/
noncomputable def nrm2 {k : ℕ} (u : Vec k) : ℝ :=
  Real.sqrt ((nrm2Sq u : ℚ) : ℝ)

/-- `NumNonPositive(u)`: the number of entries of `u` that are `≤ 0`
(IPF.cpp lines 58-59). -/
def numNonPositive {k : ℕ} (u : Vec k) : ℕ :=
  (Finset.univ.filter fun i => u i ≤ 0).card

/-- `DiagonalScale(LEFT, NORMAL, d, u)`: entrywise product `d ∘ u`. -/
def diagonalScale {k : ℕ} (d u : Vec k) : Vec k :=
  fun i => d i * u i

/-- `Shift(u, s)`: add the scalar `s` to every entry of `u`. -/
def shiftV {k : ℕ} (u : Vec k) (s : ℚ) : Vec k :=
  fun i => u i + s

/-- The three Newton-system formulations selectable through `ctrl.system`. -/
inductive KKTSystem where
  | FULL_KKT
  | AUGMENTED_KKT
  | NORMAL_KKT
deriving DecidableEq

/-- The `IPFCtrl` configuration consumed by `IPF` (spec §3): whether the
caller supplies the starting iterate, the convergence tolerance, the
iteration cap, the centering parameter, the chosen KKT formulation and the
diagnostics toggle.  The nested line-search configuration is part of the
external line-search collaborator's contract and carries no information
used by the iteration controller itself. -/
structure IPFCtrl where
  initialized : Bool
  tol : ℚ
  maxIts : ℕ
  centering : ℚ
  system : KKTSystem
  print : Bool

/-- `primObj = Dot(c,x)` (IPF.cpp line 69). -/
def primObj {n : ℕ} (c x : Vec n) : ℚ := dotV c x

/-- `dualObj = -Dot(b,y)` (IPF.cpp line 70). -/
def dualObj {m : ℕ} (b y : Vec m) : ℚ := -(dotV b y)

/-- `objConv = |primObj - dualObj| / (1 + |primObj|)` (IPF.cpp line 71);
all quantities involved are rational, so the ratio is kept in `ℚ`. -/
def objConv {m n : ℕ} (b : Vec m) (c x : Vec n) (y : Vec m) : ℚ :=
  |primObj c x - dualObj b y| / (1 + |primObj c x|)

/-- The primal residual `r_b = A x - b`, computed in IPF.cpp lines 74-76
as `rb = b; Scale(-1, rb); Gemv(NORMAL, 1, A, x, 1, rb)`. -/
def rbVec {m n : ℕ} (A : Matrix (Fin m) (Fin n) ℚ) (b : Vec m) (x : Vec n) :
    Vec m :=
  fun i => mulVecQ A x i - b i

/-- The dual residual `r_c = Aᵀ y - z + c`, computed in IPF.cpp lines 81-83
as `rc = c; Gemv(TRANSPOSE, 1, A, y, 1, rc); Axpy(-1, z, rc)`. -/
def rcVec {m n : ℕ} (A : Matrix (Fin m) (Fin n) ℚ) (c : Vec n) (y : Vec m)
    (z : Vec n) : Vec n :=
  fun j => tmulVecQ A y j - z j + c j

/-- The convergence test of IPF.cpp line 88: all three ratios at most
`ctrl.tol`.  The objective-gap ratio is rational; the two residual ratios
divide real Euclidean norms exactly as the source does. -/
def ConvergedAt {m n : ℕ} (A : Matrix (Fin m) (Fin n) ℚ) (b : Vec m)
    (c x : Vec n) (y : Vec m) (z : Vec n) (tol : ℚ) : Prop :=
  objConv b c x y ≤ tol ∧
  nrm2 (rbVec A b x) / (1 + nrm2 b) ≤ (tol : ℝ) ∧
  nrm2 (rcVec A c y z) / (1 + nrm2 c) ≤ (tol : ℝ)

/-- The duality measure `mu = Dot(x,z) / n` (IPF.cpp line 107). -/
def muVal {n : ℕ} (x z : Vec n) : ℚ :=
  dotV x z / (n : ℚ)

/-- The centrality residual as the source computes it (IPF.cpp lines
108-110): `rmu = z; DiagonalScale(LEFT, NORMAL, x, rmu);
Shift(rmu, -ctrl.centering*mu)`. -/
def rmuCode {n : ℕ} (ctrl : IPFCtrl) (x z : Vec n) : Vec n :=
  shiftV (diagonalScale x z) (-(ctrl.centering * muVal x z))

/-- The three residual equations of the full Newton system:
`A dx = -r_b`, `Aᵀ dy - dz = -r_c`, `x ∘ dz + z ∘ dx = -r_mu`.  These are
exactly the identities checked by the debug-build sanity block of IPF.cpp
lines 149-180 (`dxError`, `dyError`, `dzError`), and the joint conditions
the full KKT matrix of spec §4.2 encodes. -/
def FullNewtonSystem {m n : ℕ} (A : Matrix (Fin m) (Fin n) ℚ) (x z : Vec n)
    (rb : Vec m) (rc rmu : Vec n) (dx : Vec n) (dy : Vec m) (dz : Vec n) :
    Prop :=
  (∀ i, mulVecQ A dx i = -(rb i)) ∧
  (∀ j, tmulVecQ A dy j - dz j = -(rc j)) ∧
  (∀ j, x j * dz j + z j * dx j = -(rmu j))

/-- Modelled from the spec: `AugmentedKKT`/`AugmentedKKTRHS` of util.hpp are
not among the provided sources.  Spec §4.2: the z-block is eliminated
analytically from the full system using the complementarity relation
(valid because `x > 0` strictly), leaving an (n+m)-dimensional system in
`(dx, dy)`.  Substituting `dz = -(r_mu + z ∘ dx)/x` into the stationarity
rows gives the reduced equations below, together with the untouched
primal-feasibility rows. -/
def AugmentedKKTSystem {m n : ℕ} (A : Matrix (Fin m) (Fin n) ℚ)
    (x z : Vec n) (rb : Vec m) (rc rmu : Vec n) (dx : Vec n) (dy : Vec m) :
    Prop :=
  (∀ j, (z j / x j) * dx j + tmulVecQ A dy j = -(rc j) - rmu j / x j) ∧
  (∀ i, mulVecQ A dx i = -(rb i))

/-- Modelled from the spec: `ExpandAugmentedSolution` of util.hpp is not
among the provided sources.  Spec §4.4: for AUGMENTED_KKT, `dz` is
recovered via the complementarity relation using `dx` and `r_mu`:
`dz = -(r_mu + z ∘ dx) / x`. -/
def expandAugmentedDz {n : ℕ} (x z rmu dx : Vec n) : Vec n :=
  fun j => -((rmu j + z j * dx j) / x j)

/-- Modelled from the spec: `NormalKKT`/`NormalKKTRHS` of util.hpp are not
among the provided sources.  Spec §4.2: the x-block is further eliminated
using a diagonal scaling by `x/z`, reducing to an m×m system solved for
`dy` alone: `A diag(x/z) Aᵀ dy = r_b - A diag(x/z) r_c - A diag(1/z) r_mu`. -/
def NormalKKTSystem {m n : ℕ} (A : Matrix (Fin m) (Fin n) ℚ) (x z : Vec n)
    (rb : Vec m) (rc rmu : Vec n) (dy : Vec m) : Prop :=
  ∀ i, mulVecQ A (fun j => (x j / z j) * tmulVecQ A dy j) i =
    rb i - mulVecQ A (fun j => (x j / z j) * rc j) i -
      mulVecQ A (fun j => rmu j / z j) i

/-- Modelled from the spec: `ExpandNormalSolution` of util.hpp is not among
the provided sources.  Spec §4.4: for NORMAL_KKT, `dx` is recovered from
`dy` via the stationarity relation (with the z-block already eliminated):
`dx = -(diag(x/z) (r_c + Aᵀ dy) + diag(1/z) r_mu)`; `dz` is then recovered
from complementarity exactly as in the augmented expansion. -/
def expandNormalDx {m n : ℕ} (A : Matrix (Fin m) (Fin n) ℚ) (x z : Vec n)
    (rc rmu : Vec n) (dy : Vec m) : Vec n :=
  fun j => -((x j / z j) * (rc j + tmulVecQ A dy j) + rmu j / z j)

/-- `A` has full row rank: only the zero row-combination vanishes. -/
def FullRowRank {m n : ℕ} (A : Matrix (Fin m) (Fin n) ℚ) : Prop :=
  ∀ u : Vec m, (∀ j, tmulVecQ A u j = 0) → u = 0

/-- The build/solve/expand stage for one iteration (IPF.cpp lines 112-147):
given the current iterate and the residuals, the direction triple
`(dx, dy, dz)` is any exact solution of the formulation selected by
`ctrl.system`, expanded back to the full triple.  The dense
`SymmetricSolve` collaborator is specified as an exact direct solve
(spec §4.3, §6), so it is embedded relationally: the computed `d` solves
the assembled linear system. -/
def DirTriple {m n : ℕ} (sys : KKTSystem) (A : Matrix (Fin m) (Fin n) ℚ)
    (x z : Vec n) (rb : Vec m) (rc rmu : Vec n) (dx : Vec n) (dy : Vec m)
    (dz : Vec n) : Prop :=
  match sys with
  | .FULL_KKT => FullNewtonSystem A x z rb rc rmu dx dy dz
  | .AUGMENTED_KKT =>
      AugmentedKKTSystem A x z rb rc rmu dx dy ∧
      dz = expandAugmentedDz x z rmu dx
  | .NORMAL_KKT =>
      NormalKKTSystem A x z rb rc rmu dy ∧
      dx = expandNormalDx A x z rc rmu dy ∧
      dz = expandAugmentedDz x z rmu dx

/-- The direction-computation stage of one loop iteration: the chosen
formulation is assembled from the residuals `r_b`, `r_c` computed by the
convergence check (reused, not recomputed) and the centrality residual
`r_mu` of lines 105-110. -/
def SearchDirection {m n : ℕ} (A : Matrix (Fin m) (Fin n) ℚ) (b : Vec m)
    (c : Vec n) (ctrl : IPFCtrl) (x : Vec n) (y : Vec m) (z : Vec n)
    (dx : Vec n) (dy : Vec m) (dz : Vec n) : Prop :=
  DirTriple ctrl.system A x z (rbVec A b x) (rcVec A c y z)
    (rmuCode ctrl x z) dx dy dz

/-- Modelled from the spec: `IPFLineSearch` is not among the provided
sources.  Spec §4.5: the line search returns a step length `α ∈ (0,1]`
such that `x + α dx > 0` and `z + α dz > 0` strictly.  The merit-function
progress condition is internal to the collaborator and not part of the
contract consumed by the iteration controller. -/
def LineSearchOK {n : ℕ} (x z dx dz : Vec n) (α : ℚ) : Prop :=
  0 < α ∧ α ≤ 1 ∧ (∀ j, 0 < x j + α * dx j) ∧ (∀ j, 0 < z j + α * dz j)

/-- Modelled from the spec: `lp::primal::Initialize` is not among the
provided sources.  Spec §4.6/§6: when `ctrl.initialized` is false the
external initializer produces a strictly cone-feasible starting iterate;
when it is true the caller's iterate is used unchanged. -/
def InitRel {m n : ℕ} (ctrl : IPFCtrl) (x : Vec n) (y : Vec m) (z : Vec n)
    (x₀ : Vec n) (y₀ : Vec m) (z₀ : Vec n) : Prop :=
  if ctrl.initialized then x₀ = x ∧ y₀ = y ∧ z₀ = z
  else (∀ j, 0 < x₀ j) ∧ (∀ j, 0 < z₀ j)

/-- The cone check of IPF.cpp line 60: `x` or `z` has a nonpositive entry. -/
def ConeViolated {n : ℕ} (x z : Vec n) : Prop :=
  0 < numNonPositive x ∨ 0 < numNonPositive z

/-- The in-place update `Axpy(alpha, d?, ?)` of IPF.cpp lines 190-192. -/
def takeStep {m n : ℕ} (x : Vec n) (y : Vec m) (z : Vec n) (dx : Vec n)
    (dy : Vec m) (dz : Vec n) (α : ℚ) : Vec n × Vec m × Vec n :=
  (fun j => x j + α * dx j, fun i => y i + α * dy i, fun j => z j + α * dz j)

/-- How a call to `IPF` terminates.  The in/out iterate references hold the
recorded vectors at the moment of return or of the raised error. -/
inductive IPFOutcome (m n : ℕ) where
  | converged (x : Vec n) (y : Vec m) (z : Vec n)
  | infeasibleIterate (xNumNonPos zNumNonPos : ℕ)
      (x : Vec n) (y : Vec m) (z : Vec n)
  | iterLimitExceeded (limit : ℕ) (x : Vec n) (y : Vec m) (z : Vec n)

/-- Big-step semantics of the iteration loop of IPF.cpp lines 54-193,
indexed by the value of `numIts` at loop entry.  The four constructors
mirror the source's control flow in order: the cone check (lines 58-63),
the convergence check (lines 65-89), the iteration cap (lines 99-103), and
the build/solve/expand, line-search and in-place update stage (lines
105-192).  Each later branch carries the negations of the earlier guards,
exactly as the straight-line source sequences them. -/
inductive IPFLoop {m n : ℕ} (A : Matrix (Fin m) (Fin n) ℚ) (b : Vec m)
    (c : Vec n) (ctrl : IPFCtrl) :
    ℕ → Vec n × Vec m × Vec n → IPFOutcome m n → Prop where
  | infeasible {k : ℕ} {x : Vec n} {y : Vec m} {z : Vec n}
      (hcone : ConeViolated x z) :
      IPFLoop A b c ctrl k (x, y, z)
        (.infeasibleIterate (numNonPositive x) (numNonPositive z) x y z)
  | converged {k : ℕ} {x : Vec n} {y : Vec m} {z : Vec n}
      (hcone : ¬ ConeViolated x z)
      (hconv : ConvergedAt A b c x y z ctrl.tol) :
      IPFLoop A b c ctrl k (x, y, z) (.converged x y z)
  | iterLimit {k : ℕ} {x : Vec n} {y : Vec m} {z : Vec n}
      (hcone : ¬ ConeViolated x z)
      (hconv : ¬ ConvergedAt A b c x y z ctrl.tol)
      (hk : k = ctrl.maxIts) :
      IPFLoop A b c ctrl k (x, y, z) (.iterLimitExceeded ctrl.maxIts x y z)
  | step {k : ℕ} {x : Vec n} {y : Vec m} {z : Vec n} {dx : Vec n}
      {dy : Vec m} {dz : Vec n} {α : ℚ} {out : IPFOutcome m n}
      (hcone : ¬ ConeViolated x z)
      (hconv : ¬ ConvergedAt A b c x y z ctrl.tol)
      (hk : k ≠ ctrl.maxIts)
      (hdir : SearchDirection A b c ctrl x y z dx dy dz)
      (hls : LineSearchOK x z dx dz α)
      (hrest : IPFLoop A b c ctrl (k + 1) (takeStep x y z dx dy dz α) out) :
      IPFLoop A b c ctrl k (x, y, z) out

/-- The states observed at loop entry (top of the `for` body, before the
cone check): `EntryReachable ... k s k' s'` says the loop started at
iteration `k` in state `s` reaches the entry of iteration `k'` in state
`s'` after zero or more complete iterations. -/
inductive EntryReachable {m n : ℕ} (A : Matrix (Fin m) (Fin n) ℚ)
    (b : Vec m) (c : Vec n) (ctrl : IPFCtrl) :
    ℕ → Vec n × Vec m × Vec n → ℕ → Vec n × Vec m × Vec n → Prop where
  | refl (k : ℕ) (s : Vec n × Vec m × Vec n) :
      EntryReachable A b c ctrl k s k s
  | step {k : ℕ} {x : Vec n} {y : Vec m} {z : Vec n} {dx : Vec n}
      {dy : Vec m} {dz : Vec n} {α : ℚ} {k' : ℕ}
      {s' : Vec n × Vec m × Vec n}
      (hcone : ¬ ConeViolated x z)
      (hconv : ¬ ConvergedAt A b c x y z ctrl.tol)
      (hk : k ≠ ctrl.maxIts)
      (hdir : SearchDirection A b c ctrl x y z dx dy dz)
      (hls : LineSearchOK x z dx dz α)
      (hrest : EntryReachable A b c ctrl (k + 1)
        (takeStep x y z dx dy dz α) k' s') :
      EntryReachable A b c ctrl k (x, y, z) k' s'

/-- A full call of the dense `IPF` entry point (IPF.cpp lines 30-194):
optional initialization (line 45-46) followed by the iteration loop
starting at `numIts = 0`. -/
def IPFRun {m n : ℕ} (A : Matrix (Fin m) (Fin n) ℚ) (b : Vec m) (c : Vec n)
    (ctrl : IPFCtrl) (x : Vec n) (y : Vec m) (z : Vec n)
    (out : IPFOutcome m n) : Prop :=
  ∃ x₀ y₀ z₀, InitRel ctrl x y z x₀ y₀ z₀ ∧
    IPFLoop A b c ctrl 0 (x₀, y₀, z₀) out

/-- The loop-entry states observable during a full `IPF` call. -/
def EntryFrom {m n : ℕ} (A : Matrix (Fin m) (Fin n) ℚ) (b : Vec m)
    (c : Vec n) (ctrl : IPFCtrl) (x : Vec n) (y : Vec m) (z : Vec n)
    (k : ℕ) (s : Vec n × Vec m × Vec n) : Prop :=
  ∃ x₀ y₀ z₀, InitRel ctrl x y z x₀ y₀ z₀ ∧
    EntryReachable A b c ctrl 0 (x₀, y₀, z₀) k s

/-- A serial sparse constraint matrix, kept abstract as its dimensions and
coordinate entries: the sparse-serial overload never inspects it. -/
structure SparseMatrixRep where
  height : ℕ
  width : ℕ
  entries : List (ℕ × ℕ × ℚ)

/-- Result of the sparse-serial overload: it can only report that the
representation is unsupported, returning the untouched iterate. -/
inductive SparseSerialOutcome (m n : ℕ) where
  | notYetSupported (msg : String) (x : Vec n) (y : Vec m) (z : Vec n)

/-- The message of the `LogicError` raised in IPF.cpp line 392. -/
def sparseSerialMessage : String :=
  "Sequential sparse-direct solvers not yet supported"

/-- The `SparseMatrix` overload of `IPF` (IPF.cpp lines 383-393): its whole
body is a single `LogicError`, raised unconditionally before any
computation touches the problem data or the iterate. -/
def IPFSparseSerial {m n : ℕ} (A : SparseMatrixRep) (b : Vec m)
    (c x : Vec n) (y : Vec m) (z : Vec n) (ctrl : IPFCtrl) :
    SparseSerialOutcome m n :=
  .notYetSupported sparseSerialMessage x y z

/-- The numeric factorization performed on the frontal tree in one
iteration of the sparse-distributed path: either the regularized LDL of
IPF.cpp lines 548-549 / 594-595 — carrying the pivot tolerance below which
a pivot is replaced, the per-index a-priori regularization candidate
magnitudes, and the (zero) a-priori regularization actually requested — or
the plain intra-pivoted LDL of line 625. -/
inductive FactorizationKind where
  | regularizedLDL (pivTol : ℝ) (regCand : ℕ → ℝ) (reg : ℕ → ℝ)
  | ldlIntraPiv

/-- How the factored system is solved in one iteration of the
sparse-distributed path: a single forward/backward substitution against
the frontal tree (`Solve`, lines 557-559 / 603-605), or
`SolveWithIterativeRefinement` with its minimum per-step residual-reduction
factor and refinement-iteration cap (lines 626-628). -/
inductive SolveKind where
  | directSolve
  | iterativeRefinement (minReductionFactor : ℚ) (maxRefineIts : ℕ)

/-- The regularization candidate vector of the FULL_KKT branch (IPF.cpp
lines 524-534): length `m + 2n`, `+regMagPrimal` on the primal block
`i < n`, `-regMagLagrange` on the multiplier block `n ≤ i < n + m`, and
`-regMagDual` on the dual block beyond. -/
def regCandFull (m n : ℕ) (regMagPrimal regMagLagrange regMagDual : ℝ) :
    ℕ → ℝ :=
  fun i => if i < n then regMagPrimal
    else if i < n + m then -regMagLagrange
    else -regMagDual

/-- The regularization candidate vector of the AUGMENTED_KKT branch
(IPF.cpp lines 572-580): length `n + m`, `+regMagPrimal` on the primal
block `i < n` and `-regMagLagrange` on the multiplier block. -/
def regCandAugmented (n : ℕ) (regMagPrimal regMagLagrange : ℝ) : ℕ → ℝ :=
  fun i => if i < n then regMagPrimal else -regMagLagrange

/-- The numeric factorization the sparse-distributed overload performs for
each choice of `ctrl.system`, as a function of the problem dimensions, the
machine epsilon of the `Real` instantiation, and `MaxNorm(J)` (IPF.cpp
lines 513-549, 562-595, 608-625).  FULL_KKT and AUGMENTED_KKT compute a
pivot tolerance `MaxNorm(J) * epsilon` and candidate magnitudes
`Pow(epsilon, 0.75)` (primal) and `Pow(epsilon, 0.5)` (multiplier/dual)
and call `RegularizedLDL`; NORMAL_KKT calls the unregularized
`LDL(..., LDL_INTRAPIV_1D)` with no pivot tolerance at all. -/
noncomputable def distSparseFactorization (sys : KKTSystem) (m n : ℕ)
    (epsilon maxNormJ : ℝ) : FactorizationKind :=
  match sys with
  | .FULL_KKT =>
      .regularizedLDL (maxNormJ * epsilon)
        (regCandFull m n (epsilon ^ ((3 : ℝ) / 4)) (epsilon ^ ((1 : ℝ) / 2))
          (epsilon ^ ((1 : ℝ) / 2)))
        (fun _ => 0)
  | .AUGMENTED_KKT =>
      .regularizedLDL (maxNormJ * epsilon)
        (regCandAugmented n (epsilon ^ ((3 : ℝ) / 4))
          (epsilon ^ ((1 : ℝ) / 2)))
        (fun _ => 0)
  | .NORMAL_KKT => .ldlIntraPiv

/-- How the sparse-distributed overload solves against the factored tree
for each choice of `ctrl.system`: FULL_KKT and AUGMENTED_KKT perform the
plain `Solve` (their `SolveWithIterativeRefinement` calls are commented
out, lines 551-556 / 597-602); NORMAL_KKT always calls
`SolveWithIterativeRefinement` with `minReductionFactor = 2` and
`maxRefineIts = 10` (lines 511-512, 626-628). -/
def distSparseSolve (sys : KKTSystem) : SolveKind :=
  match sys with
  | .FULL_KKT => .directSolve
  | .AUGMENTED_KKT => .directSolve
  | .NORMAL_KKT => .iterativeRefinement 2 10

/-- The observable actions of the linear-solve section of one iteration of
the sparse-distributed path. -/
inductive SparseStepEvent where
  | nestedDissection
  | frontTreeInit
  | regLDLFactor
  | intraPivLDLFactor
  | directTreeSolve
  | refinedSolve
deriving DecidableEq

/-- The linear-solve events of iteration `k` (value of `numIts`) of the
sparse-distributed overload, in source order.  Nested dissection plus
inversion of the ordering map run only under the guards of IPF.cpp lines
540-544 (FULL_KKT), 586-590 (AUGMENTED_KKT: only when `ctrl.initialized`,
since otherwise the ordering was inherited from the initializer's
augmented solve, lines 418-436) and 619-623 (NORMAL_KKT);
`JFrontTree.Initialize` and the factorization/solve run every iteration. -/
def distSparseSolveEvents (sys : KKTSystem) (ctrlInitialized : Bool)
    (k : ℕ) : List SparseStepEvent :=
  match sys with
  | .FULL_KKT =>
      (if k = 0 then [.nestedDissection] else []) ++
        [.frontTreeInit, .regLDLFactor, .directTreeSolve]
  | .AUGMENTED_KKT =>
      (if ctrlInitialized = true ∧ k = 0 then [.nestedDissection] else []) ++
        [.frontTreeInit, .regLDLFactor, .directTreeSolve]
  | .NORMAL_KKT =>
      (if k = 0 then [.nestedDissection] else []) ++
        [.frontTreeInit, .intraPivLDLFactor, .refinedSolve]

/-- Whether the ordering map, separator tree and symbolic info used by the
iteration loop were already populated by the initializer before the loop
started: IPF.cpp lines 418-436 pass the persistent `map`, `sepTree`,
`info` to `Initialize` exactly when `!ctrl.initialized` and
`ctrl.system == AUGMENTED_KKT`; in every other uninitialized case the
initializer's own augmented ordering is built in local variables and
discarded. -/
def orderingFromInit (sys : KKTSystem) (ctrlInitialized : Bool) : Bool :=
  !ctrlInitialized && (sys == KKTSystem.AUGMENTED_KKT)

/-- Number of nested-dissection orderings computed for the loop's own `J`
during the first `numIters` iterations of the sparse-distributed path,
plus the one inherited from the initializer when applicable. -/
def orderingComputations (sys : KKTSystem) (ctrlInitialized : Bool)
    (numIters : ℕ) : ℕ :=
  (if orderingFromInit sys ctrlInitialized then 1 else 0) +
    ((List.range numIters).map
      (fun k => (distSparseSolveEvents sys ctrlInitialized k).count
        .nestedDissection)).sum

/-- The all-zero length-1 vector, used for concrete instances. -/
def vzero : Vec 1 := fun _ => 0

/-- The all-one length-1 vector, used for concrete instances. -/
def vone : Vec 1 := fun _ => 1

/-- The length-1 vector with entry `-1`, used for concrete instances. -/
def vneg : Vec 1 := fun _ => -1

/-- The 1×1 constraint matrix `[[1]]`, used for concrete instances. -/
def Aone : Matrix (Fin 1) (Fin 1) ℚ := fun _ _ => 1

/-- A concrete configuration: caller-supplied iterate, `tol = 1/2`,
`maxIts = 5`, `centering = 1/10`, the augmented formulation, no printing. -/
def ctrl1 : IPFCtrl := ⟨true, 1/2, 5, 1/10, .AUGMENTED_KKT, false⟩

/-- A concrete configuration with `maxIts = 0` and `tol = 1/4`. -/
def ctrl5 : IPFCtrl := ⟨true, 1/4, 0, 1/10, .AUGMENTED_KKT, false⟩

section Theorems

/-! Helper lemmas, shared by the claim theorems below. -/

/-- A vector with vanishing sum of squares has vanishing Euclidean norm. -/
theorem nrm2_of_sq_zero {k : ℕ} (u : Vec k) (h : nrm2Sq u = 0) :
    nrm2 u = 0 := by
  simp [nrm2, h]

/-- `mulVecQ` commutes with pointwise linear combinations of three
vectors. -/
theorem mulVecQ_comb3 {m n : ℕ} (A : Matrix (Fin m) (Fin n) ℚ)
    (a b' c' : ℚ) (u v w r : Vec n)
    (h : ∀ j, r j = a * u j + b' * v j + c' * w j) (i : Fin m) :
    mulVecQ A r i =
      a * mulVecQ A u i + b' * mulVecQ A v i + c' * mulVecQ A w i := by
  simp only [mulVecQ]
  rw [Finset.mul_sum, Finset.mul_sum, Finset.mul_sum,
    ← Finset.sum_add_distrib, ← Finset.sum_add_distrib]
  exact Finset.sum_congr rfl fun j _ => by rw [h j]; ring

/-- The complementarity row holds by construction of the augmented
expansion, for any nonvanishing `x`-entry. -/
theorem expandAug_comp {n : ℕ} (x z rmu dx : Vec n) (j : Fin n)
    (hxj : x j ≠ 0) :
    x j * expandAugmentedDz x z rmu dx j + z j * dx j = -(rmu j) := by
  simp only [expandAugmentedDz]
  field_simp

/-- Solving the augmented system and expanding `dz` yields a solution of
the full Newton system (requires `x > 0`, the validity condition of the
z-block elimination). -/
theorem aug_expand_full {m n : ℕ} (A : Matrix (Fin m) (Fin n) ℚ)
    (x z : Vec n) (rb : Vec m) (rc rmu : Vec n) (dx : Vec n) (dy : Vec m)
    (hx : ∀ j, 0 < x j)
    (haug : AugmentedKKTSystem A x z rb rc rmu dx dy) :
    FullNewtonSystem A x z rb rc rmu dx dy (expandAugmentedDz x z rmu dx) := by
  obtain ⟨h1, h2⟩ := haug
  refine ⟨h2, fun j => ?_, fun j => expandAug_comp x z rmu dx j (hx j).ne'⟩
  simp only [expandAugmentedDz]
  linear_combination h1 j

/-- A solution of the full Newton system restricts to a solution of the
augmented system, with `dz` given by the augmented expansion. -/
theorem full_expand_aug {m n : ℕ} (A : Matrix (Fin m) (Fin n) ℚ)
    (x z : Vec n) (rb : Vec m) (rc rmu : Vec n) (dx : Vec n) (dy : Vec m)
    (dz : Vec n) (hx : ∀ j, 0 < x j)
    (hfull : FullNewtonSystem A x z rb rc rmu dx dy dz) :
    AugmentedKKTSystem A x z rb rc rmu dx dy ∧
      dz = expandAugmentedDz x z rmu dx := by
  obtain ⟨h1, h2, h3⟩ := hfull
  have hdz : ∀ j, dz j = expandAugmentedDz x z rmu dx j := by
    intro j
    have hxj : x j ≠ 0 := (hx j).ne'
    simp only [expandAugmentedDz]
    rw [← neg_div, eq_div_iff hxj]
    linear_combination h3 j
  refine ⟨⟨fun j => ?_, h1⟩, funext hdz⟩
  have h2' := h2 j
  rw [hdz j] at h2'
  simp only [expandAugmentedDz] at h2'
  linear_combination h2'

/-- Solving the normal system for `dy` and expanding `dx`, `dz` yields a
solution of the full Newton system (requires `x > 0` and `z > 0`, the
validity conditions of the two eliminations). -/
theorem normal_expand_full {m n : ℕ} (A : Matrix (Fin m) (Fin n) ℚ)
    (x z : Vec n) (rb : Vec m) (rc rmu : Vec n) (dy : Vec m)
    (hx : ∀ j, 0 < x j) (hz : ∀ j, 0 < z j)
    (hnorm : NormalKKTSystem A x z rb rc rmu dy) :
    FullNewtonSystem A x z rb rc rmu (expandNormalDx A x z rc rmu dy) dy
      (expandAugmentedDz x z rmu (expandNormalDx A x z rc rmu dy)) := by
  refine ⟨fun i => ?_, fun j => ?_, fun j =>
    expandAug_comp x z rmu _ j (hx j).ne'⟩
  · have hc := mulVecQ_comb3 A (-1) (-1) (-1)
      (fun j => (x j / z j) * rc j)
      (fun j => (x j / z j) * tmulVecQ A dy j)
      (fun j => rmu j / z j)
      (expandNormalDx A x z rc rmu dy)
      (fun j => by simp only [expandNormalDx]; ring) i
    have hn := hnorm i
    linear_combination hc - hn
  · have hxj : x j ≠ 0 := (hx j).ne'
    have hzj : z j ≠ 0 := (hz j).ne'
    simp only [expandAugmentedDz, expandNormalDx]
    field_simp

/-- A solution of the full Newton system yields a solution of the normal
system in `dy`, with `dx` and `dz` given by the normal expansion. -/
theorem full_expand_normal {m n : ℕ} (A : Matrix (Fin m) (Fin n) ℚ)
    (x z : Vec n) (rb : Vec m) (rc rmu : Vec n) (dx : Vec n) (dy : Vec m)
    (dz : Vec n) (hx : ∀ j, 0 < x j) (hz : ∀ j, 0 < z j)
    (hfull : FullNewtonSystem A x z rb rc rmu dx dy dz) :
    NormalKKTSystem A x z rb rc rmu dy ∧
      dx = expandNormalDx A x z rc rmu dy ∧
      dz = expandAugmentedDz x z rmu dx := by
  obtain ⟨h1, h2, h3⟩ := hfull
  have hdx : ∀ j, dx j = expandNormalDx A x z rc rmu dy j := by
    intro j
    have hzj : z j ≠ 0 := (hz j).ne'
    have hxj : x j ≠ 0 := (hx j).ne'
    simp only [expandNormalDx]
    field_simp
    linear_combination h3 j + x j * h2 j
  have hdz : ∀ j, dz j = expandAugmentedDz x z rmu dx j := by
    intro j
    have hxj : x j ≠ 0 := (hx j).ne'
    simp only [expandAugmentedDz]
    rw [← neg_div, eq_div_iff hxj]
    linear_combination h3 j
  refine ⟨fun i => ?_, funext hdx, funext hdz⟩
  have hpt : ∀ j, (x j / z j) * tmulVecQ A dy j =
      (-1) * dx j + (-1) * ((x j / z j) * rc j) + (-1) * (rmu j / z j) := by
    intro j
    have hzj : z j ≠ 0 := (hz j).ne'
    have hd := hdx j
    simp only [expandNormalDx] at hd
    linear_combination hd
  have hc := mulVecQ_comb3 A (-1) (-1) (-1) dx
    (fun j => (x j / z j) * rc j) (fun j => rmu j / z j)
    (fun j => (x j / z j) * tmulVecQ A dy j) hpt i
  have h1i := h1 i
  linear_combination hc - h1i

/-- If a run of the loop returns normally, the entry of its final
iteration is a reachable loop-entry state passing the cone check with all
three convergence ratios within tolerance. -/
theorem loop_converged_entry {m n : ℕ} {A : Matrix (Fin m) (Fin n) ℚ}
    {b : Vec m} {c : Vec n} {ctrl : IPFCtrl} {k : ℕ}
    {s : Vec n × Vec m × Vec n} {out : IPFOutcome m n}
    (h : IPFLoop A b c ctrl k s out) :
    ∀ xf yf zf, out = .converged xf yf zf →
      ∃ k' s', EntryReachable A b c ctrl k s k' s' ∧
        ¬ ConeViolated s'.1 s'.2.2 ∧
        ConvergedAt A b c s'.1 s'.2.1 s'.2.2 ctrl.tol := by
  induction h with
  | infeasible hcone =>
      intro xf yf zf heq
      exact absurd heq (by simp)
  | converged hcone hconv =>
      intro xf yf zf _
      exact ⟨_, _, .refl _ _, hcone, hconv⟩
  | iterLimit hcone hconv hk =>
      intro xf yf zf heq
      exact absurd heq (by simp)
  | step hcone hconv hk hdir hls hrest ih =>
      intro xf yf zf heq
      obtain ⟨k', s', hr, hc1, hc2⟩ := ih xf yf zf heq
      exact ⟨k', s', .step hcone hconv hk hdir hls hr, hc1, hc2⟩

/-- Conversely, if some reachable loop-entry state passes the cone check
with all three ratios within tolerance, the loop can return normally with
that state as the final iterate. -/
theorem entry_converged_loop {m n : ℕ} {A : Matrix (Fin m) (Fin n) ℚ}
    {b : Vec m} {c : Vec n} {ctrl : IPFCtrl} {k : ℕ}
    {s : Vec n × Vec m × Vec n} {k' : ℕ} {s' : Vec n × Vec m × Vec n}
    (h : EntryReachable A b c ctrl k s k' s') :
    ¬ ConeViolated s'.1 s'.2.2 →
    ConvergedAt A b c s'.1 s'.2.1 s'.2.2 ctrl.tol →
    IPFLoop A b c ctrl k s (.converged s'.1 s'.2.1 s'.2.2) := by
  induction h with
  | refl k s =>
      intro hcone hconv
      exact .converged hcone hconv
  | step hcone hconv hk hdir hls hrest ih =>
      intro hc1 hc2
      exact .step hcone hconv hk hdir hls (ih hc1 hc2)

/-- Summing a `ℕ`-valued indicator that is `1` at `0` and vanishes at every
successor over `range (K+1)` gives `1`. -/
theorem sum_indicator_range (K : ℕ) (f : ℕ → ℕ) (h0 : f 0 = 1)
    (hs : ∀ k, f (k + 1) = 0) :
    ((List.range (K + 1)).map f).sum = 1 := by
  induction K with
  | zero => simp [List.range_succ, h0]
  | succ K ih =>
      rw [List.range_succ, List.map_append, List.sum_append]
      simp [hs, ih]

/-- Summing an everywhere-vanishing `ℕ`-valued function over `range K`
gives `0`. -/
theorem sum_zero_range (K : ℕ) (f : ℕ → ℕ) (h : ∀ k, f k = 0) :
    ((List.range K).map f).sum = 0 := by
  induction K with
  | zero => simp
  | succ K ih =>
      rw [List.range_succ, List.map_append, List.sum_append]
      simp [h, ih]

/-! The claim theorems. -/

/-- C1 (amended): a call of IPF returns normally if and only if some
reachable loop-entry state both passes the cone check (`x > 0`, `z > 0`,
which the source tests before the convergence check) and has all three
convergence ratios — objective-gap, primal-residual and dual-residual, as
computed by the source — at most `ctrl.tol`; the residual vectors of the
check are the very vectors consumed by the Newton right-hand side
(`SearchDirection` is assembled from `rbVec`/`rcVec`, not from recomputed
residuals). -/
theorem converged_iff_reachable_entry {m n : ℕ}
    (A : Matrix (Fin m) (Fin n) ℚ) (b : Vec m) (c : Vec n) (ctrl : IPFCtrl)
    (x : Vec n) (y : Vec m) (z : Vec n) :
    (∃ xf yf zf, IPFRun A b c ctrl x y z (.converged xf yf zf)) ↔
    (∃ k s, EntryFrom A b c ctrl x y z k s ∧ ¬ ConeViolated s.1 s.2.2 ∧
      ConvergedAt A b c s.1 s.2.1 s.2.2 ctrl.tol) := by
  constructor
  · rintro ⟨xf, yf, zf, x₀, y₀, z₀, hi, hl⟩
    obtain ⟨k', s', hr, h1, h2⟩ := loop_converged_entry hl xf yf zf rfl
    exact ⟨k', s', ⟨x₀, y₀, z₀, hi, hr⟩, h1, h2⟩
  · rintro ⟨k, s, ⟨x₀, y₀, z₀, hi, hr⟩, h1, h2⟩
    exact ⟨s.1, s.2.1, s.2.2, x₀, y₀, z₀, hi, entry_converged_loop hr h1 h2⟩

/-- C1 (counterexample to the claim as stated): at the concrete input
`A = [[1]]`, `b = [0]`, `c = [1]`, `x = [0]`, `y = [0]`, `z = [1]` with
`tol = 1/2`, the very first loop entry has all three convergence ratios
equal to `0 ≤ tol`, yet the call cannot return normally: the cone check
runs first and `x` has a nonpositive entry, so `InfeasibleIterate` is
raised.  This refutes the backward direction of the claimed
biconditional. -/
theorem converged_iff_cex :
    (∃ k s, EntryFrom Aone vzero vone ctrl1 vzero vzero vone k s ∧
      ConvergedAt Aone vzero vone s.1 s.2.1 s.2.2 ctrl1.tol) ∧
    ¬ (∃ xf yf zf,
        IPFRun Aone vzero vone ctrl1 vzero vzero vone
          (.converged xf yf zf)) := by
  constructor
  · refine ⟨0, (vzero, vzero, vone),
      ⟨vzero, vzero, vone, by simp [InitRel, ctrl1], .refl _ _⟩, ?_, ?_, ?_⟩
    · norm_num [objConv, primObj, dualObj, dotV, vone, vzero, ctrl1]
    · have h1 : rbVec Aone vzero vzero = vzero := by
        funext i; simp [rbVec, mulVecQ, vzero, Aone]
      have h2 : nrm2 vzero = 0 := by simp [nrm2, nrm2Sq, vzero]
      rw [h1, h2]
      norm_num [ctrl1]
    · have h1 : rcVec Aone vone vzero vone = vzero := by
        funext j; simp [rcVec, tmulVecQ, vzero, vone, Aone]
      have h2 : nrm2 vzero = 0 := by simp [nrm2, nrm2Sq, vzero]
      rw [h1, h2, zero_div]
      norm_num [ctrl1]
  · rintro ⟨xf, yf, zf, x₀, y₀, z₀, hi, hl⟩
    have hi' : x₀ = vzero ∧ y₀ = vzero ∧ z₀ = vone := by
      simpa [InitRel, ctrl1] using hi
    obtain ⟨rfl, rfl, rfl⟩ := hi'
    have hcv : ConeViolated vzero vone := Or.inl (by decide)
    cases hl with
    | converged hcone _ => exact hcone hcv
    | step hcone _ _ _ _ _ => exact hcone hcv

/-- C2: for the same problem data, the same iterate, and exact arithmetic,
the build/solve/expand stage produces the same direction triples under
FULL_KKT and AUGMENTED_KKT, and — with the claim's additional full-row-rank
hypothesis — under NORMAL_KKT as well: the solution sets of the three
formulations, each expanded to the full triple, coincide whenever the
iterate is strictly in the cone.  (The relational embedding of the exact
solver makes the row-rank hypothesis unnecessary for the set equality
itself; it is what guarantees the systems are uniquely solvable.) -/
theorem direction_formulation_equiv {m n : ℕ}
    (A : Matrix (Fin m) (Fin n) ℚ) (x z : Vec n) (rb : Vec m)
    (rc rmu : Vec n) (dx : Vec n) (dy : Vec m) (dz : Vec n)
    (hx : ∀ j, 0 < x j) (hz : ∀ j, 0 < z j) :
    (DirTriple .FULL_KKT A x z rb rc rmu dx dy dz ↔
      DirTriple .AUGMENTED_KKT A x z rb rc rmu dx dy dz) ∧
    (FullRowRank A →
      (DirTriple .FULL_KKT A x z rb rc rmu dx dy dz ↔
        DirTriple .NORMAL_KKT A x z rb rc rmu dx dy dz)) := by
  constructor
  · constructor
    · intro hf
      exact full_expand_aug A x z rb rc rmu dx dy dz hx hf
    · rintro ⟨haug, rfl⟩
      exact aug_expand_full A x z rb rc rmu dx dy hx haug
  · intro _hrank
    constructor
    · intro hf
      exact full_expand_normal A x z rb rc rmu dx dy dz hx hz hf
    · rintro ⟨hn, rfl, rfl⟩
      exact normal_expand_full A x z rb rc rmu dy hx hz hn

/-- C2 (witness): the equivalence instantiated at the concrete data
`A = [[1]]`, `x = z = [1]`, zero residuals, zero directions, with both
positivity hypotheses discharged. -/
theorem direction_formulation_equiv_witness :
    (∀ j, 0 < vone j) ∧
    ((DirTriple .FULL_KKT Aone vone vone vzero vzero vzero vzero vzero
        vzero ↔
      DirTriple .AUGMENTED_KKT Aone vone vone vzero vzero vzero vzero vzero
        vzero) ∧
     (FullRowRank Aone →
      (DirTriple .FULL_KKT Aone vone vone vzero vzero vzero vzero vzero
          vzero ↔
        DirTriple .NORMAL_KKT Aone vone vone vzero vzero vzero vzero vzero
          vzero))) := by
  have hpos : ∀ j : Fin 1, 0 < vone j := fun j => by norm_num [vone]
  exact ⟨hpos, direction_formulation_equiv Aone vone vone vzero vzero vzero
    vzero vzero vzero hpos hpos⟩

/-- C3: at the start of every iteration — before the convergence check, so
even for an iterate meeting all tolerances — an iterate with a nonpositive
entry in `x` or `z` makes the loop raise `InfeasibleIterate` carrying the
exact counts of nonpositive entries of `x` and of `z`, with the iterate
untouched and no build/solve/update work of the iteration performed: the
error outcome is the only derivable outcome. -/
theorem cone_violation_raises {m n : ℕ} (A : Matrix (Fin m) (Fin n) ℚ)
    (b : Vec m) (c : Vec n) (ctrl : IPFCtrl) (k : ℕ) (x : Vec n)
    (y : Vec m) (z : Vec n) (out : IPFOutcome m n) (h : ConeViolated x z) :
    IPFLoop A b c ctrl k (x, y, z) out ↔
      out = .infeasibleIterate (numNonPositive x) (numNonPositive z)
        x y z := by
  constructor
  · intro hl
    cases hl with
    | infeasible _ => rfl
    | converged hcone _ => exact absurd h hcone
    | iterLimit hcone _ _ => exact absurd h hcone
    | step hcone _ _ _ _ _ => exact absurd h hcone
  · rintro rfl
    exact .infeasible h

/-- C3 (witness): at `x = [-1]`, `z = [1]` the counts evaluate to `1` and
`0` and the characterization holds at iteration `0` of a concrete
problem. -/
theorem cone_violation_raises_witness :
    numNonPositive vneg = 1 ∧ numNonPositive vone = 0 ∧
    ConeViolated vneg vone ∧
    (IPFLoop Aone vone vone ctrl1 0 (vneg, vzero, vone)
        (.infeasibleIterate (numNonPositive vneg) (numNonPositive vone)
          vneg vzero vone) ↔
      (.infeasibleIterate (numNonPositive vneg) (numNonPositive vone)
          vneg vzero vone : IPFOutcome 1 1) =
        .infeasibleIterate (numNonPositive vneg) (numNonPositive vone)
          vneg vzero vone) := by
  have h : ConeViolated vneg vone := Or.inl (by decide)
  exact ⟨by decide, by decide, h,
    cone_violation_raises Aone vone vone ctrl1 0 vneg vzero vone _ h⟩

/-- C4: for every formulation, a direction triple produced by the
build/solve/expand stage satisfies the three residual equations of the
full Newton system against the right-hand side it was built from:
`A dx = -r_b`, `Aᵀ dy - dz = -r_c`, `x ∘ dz + z ∘ dx = -r_mu` (exact
arithmetic; the iterate is strictly in the cone, as the source's own cone
check guarantees). -/
theorem expanded_direction_newton_residuals {m n : ℕ} (sys : KKTSystem)
    (A : Matrix (Fin m) (Fin n) ℚ) (x z : Vec n) (rb : Vec m)
    (rc rmu : Vec n) (dx : Vec n) (dy : Vec m) (dz : Vec n)
    (hx : ∀ j, 0 < x j) (hz : ∀ j, 0 < z j)
    (hdir : DirTriple sys A x z rb rc rmu dx dy dz) :
    FullNewtonSystem A x z rb rc rmu dx dy dz := by
  cases sys with
  | FULL_KKT => exact hdir
  | AUGMENTED_KKT =>
      obtain ⟨haug, rfl⟩ := hdir
      exact aug_expand_full A x z rb rc rmu dx dy hx haug
  | NORMAL_KKT =>
      obtain ⟨hn, rfl, rfl⟩ := hdir
      exact normal_expand_full A x z rb rc rmu dy hx hz hn

/-- C4 (witness): the round-trip property applied at the augmented
formulation with concrete data `A = [[1]]`, `x = z = [1]`, zero residuals
and the zero direction triple, all hypotheses discharged. -/
theorem expanded_direction_newton_residuals_witness :
    (∀ j, 0 < vone j) ∧
    DirTriple .AUGMENTED_KKT Aone vone vone vzero vzero vzero vzero vzero
      vzero ∧
    FullNewtonSystem Aone vone vone vzero vzero vzero vzero vzero vzero := by
  have hpos : ∀ j : Fin 1, 0 < vone j := fun j => by norm_num [vone]
  have hdir : DirTriple .AUGMENTED_KKT Aone vone vone vzero vzero vzero
      vzero vzero vzero := by
    refine ⟨⟨fun j => ?_, fun i => ?_⟩, funext fun j => ?_⟩ <;>
      simp [tmulVecQ, mulVecQ, expandAugmentedDz, vone, vzero, Aone]
  exact ⟨hpos, hdir, expanded_direction_newton_residuals .AUGMENTED_KKT
    Aone vone vone vzero vzero vzero vzero vzero vzero hpos hpos hdir⟩

/-- C5 (counterexample to the claim as stated): with `maxIts = 0` and the
iterate `x = [-1]`, `y = [0]`, `z = [1]` on `A = [[1]]`, `b = c = [1]`,
`tol = 1/4`, the convergence ratios are not all within tolerance, yet IPF
does not raise `IterationLimitExceeded`: the cone check runs first and
raises `InfeasibleIterate`.  The claim omits the cone-check
precondition. -/
theorem maxits_zero_cex :
    ctrl5.maxIts = 0 ∧
    ¬ ConvergedAt Aone vone vone vneg vzero vone ctrl5.tol ∧
    IPFRun Aone vone vone ctrl5 vneg vzero vone
      (.infeasibleIterate (numNonPositive vneg) (numNonPositive vone)
        vneg vzero vone) ∧
    ¬ IPFRun Aone vone vone ctrl5 vneg vzero vone
        (.iterLimitExceeded 0 vneg vzero vone) := by
  refine ⟨rfl, ?_, ?_, ?_⟩
  · intro hcv
    have h1 := hcv.1
    norm_num [objConv, primObj, dualObj, dotV, vone, vneg, vzero,
      ctrl5] at h1
  · exact ⟨vneg, vzero, vone, by simp [InitRel, ctrl5],
      .infeasible (Or.inl (by decide))⟩
  · rintro ⟨x₀, y₀, z₀, hi, hl⟩
    have hi' : x₀ = vneg ∧ y₀ = vzero ∧ z₀ = vone := by
      simpa [InitRel, ctrl5] using hi
    obtain ⟨rfl, rfl, rfl⟩ := hi'
    have hcv : ConeViolated vneg vone := Or.inl (by decide)
    cases hl with
    | iterLimit hcone _ _ => exact hcone hcv
    | step hcone _ _ _ _ _ => exact hcone hcv

/-- C5 (amended): with `ctrl.maxIts = 0`, a caller-supplied iterate that
is strictly in the cone and whose convergence ratios are not all within
tolerance makes IPF raise `IterationLimitExceeded` reporting the limit
`0`, before any build/solve/line-search step, with the iterate left
exactly as it was at entry to the loop: that error outcome, carrying the
unchanged iterate, is the only derivable outcome. -/
theorem maxits_zero_iter_limit {m n : ℕ} (A : Matrix (Fin m) (Fin n) ℚ)
    (b : Vec m) (c : Vec n) (ctrl : IPFCtrl) (x : Vec n) (y : Vec m)
    (z : Vec n) (out : IPFOutcome m n)
    (hinit : ctrl.initialized = true) (hmax : ctrl.maxIts = 0)
    (hcone : ¬ ConeViolated x z)
    (hconv : ¬ ConvergedAt A b c x y z ctrl.tol) :
    IPFRun A b c ctrl x y z out ↔ out = .iterLimitExceeded 0 x y z := by
  constructor
  · rintro ⟨x₀, y₀, z₀, hi, hl⟩
    have hi' : x₀ = x ∧ y₀ = y ∧ z₀ = z := by
      simpa [InitRel, hinit] using hi
    obtain ⟨rfl, rfl, rfl⟩ := hi'
    cases hl with
    | infeasible h => exact absurd h hcone
    | converged _ h => exact absurd h hconv
    | iterLimit _ _ _ => rw [hmax]
    | step _ _ hk _ _ _ => exact absurd hmax.symm hk
  · rintro rfl
    refine ⟨x, y, z, by simp [InitRel, hinit], ?_⟩
    have h := @IPFLoop.iterLimit m n A b c ctrl 0 x y z hcone hconv
      hmax.symm
    rwa [hmax] at h

/-- C5 (witness): the amended characterization at the concrete input
`A = [[1]]`, `b = c = [1]`, `x = z = [1]`, `y = [0]`, `tol = 1/4`,
`maxIts = 0`, whose objective-gap ratio is `1/2 > 1/4`. -/
theorem maxits_zero_iter_limit_witness :
    ctrl5.initialized = true ∧ ctrl5.maxIts = 0 ∧
    ¬ ConeViolated vone vone ∧
    ¬ ConvergedAt Aone vone vone vone vzero vone ctrl5.tol ∧
    (IPFRun Aone vone vone ctrl5 vone vzero vone
        (.iterLimitExceeded 0 vone vzero vone) ↔
      (.iterLimitExceeded 0 vone vzero vone : IPFOutcome 1 1) =
        .iterLimitExceeded 0 vone vzero vone) := by
  have hcone : ¬ ConeViolated vone vone := by
    simp only [ConeViolated]
    decide
  have hconv : ¬ ConvergedAt Aone vone vone vone vzero vone ctrl5.tol := by
    intro hcv
    have h1 := hcv.1
    norm_num [objConv, primObj, dualObj, dotV, vone, vzero, ctrl5] at h1
  exact ⟨rfl, rfl, hcone, hconv, maxits_zero_iter_limit Aone vone vone
    ctrl5 vone vzero vone _ rfl rfl hcone hconv⟩

/-- C6: the sparse-serial overload of IPF raises its not-yet-supported
error immediately for every input: it performs no computation and the
outcome hands back `x`, `y`, `z` exactly as supplied, with the source's
error message. -/
theorem sparse_serial_not_supported {m n : ℕ} (A : SparseMatrixRep)
    (b : Vec m) (c x : Vec n) (y : Vec m) (z : Vec n) (ctrl : IPFCtrl) :
    IPFSparseSerial A b c x y z ctrl =
      .notYetSupported sparseSerialMessage x y z := rfl

/-- C7 (counterexample to the claim as stated): for
`ctrl.system = NORMAL_KKT` the sparse-distributed numeric factorization is
not a regularized LDL for any pivot tolerance or candidate vector — it is
the plain intra-pivoted LDL, with no pivot tolerance and no
regularization. -/
theorem normal_kkt_not_regularized_cex :
    ¬ ∃ pivTol regCand reg,
      distSparseFactorization .NORMAL_KKT 1 1 ((1 : ℝ) / 2) 1 =
        .regularizedLDL pivTol regCand reg := by
  rintro ⟨p, rc, rg, h⟩
  simp [distSparseFactorization] at h

/-- C7 (amended): in the sparse-distributed path, for
`ctrl.system ∈ {FULL_KKT, AUGMENTED_KKT}` the numeric factorization is the
regularized LDL with pivot tolerance `MaxNorm(J) * epsilon` and a priori
regularization candidate magnitudes `epsilon^0.75` on the primal block
(indices `< n`), `-epsilon^0.5` on the Lagrange-multiplier block, and (for
FULL_KKT) `-epsilon^0.5` on the dual block, with zero a priori
regularization requested (candidates are applied by the `RegularizedLDL`
collaborator only where pivots fall below the tolerance); for NORMAL_KKT
the factorization is the unregularized intra-pivoted LDL. -/
theorem dist_sparse_regularization (m n : ℕ) (epsilon maxNormJ : ℝ) :
    distSparseFactorization .FULL_KKT m n epsilon maxNormJ =
      .regularizedLDL (maxNormJ * epsilon)
        (fun i => if i < n then epsilon ^ ((3 : ℝ) / 4)
          else if i < n + m then -(epsilon ^ ((1 : ℝ) / 2))
          else -(epsilon ^ ((1 : ℝ) / 2)))
        (fun _ => 0) ∧
    distSparseFactorization .AUGMENTED_KKT m n epsilon maxNormJ =
      .regularizedLDL (maxNormJ * epsilon)
        (fun i => if i < n then epsilon ^ ((3 : ℝ) / 4)
          else -(epsilon ^ ((1 : ℝ) / 2)))
        (fun _ => 0) ∧
    distSparseFactorization .NORMAL_KKT m n epsilon maxNormJ =
      .ldlIntraPiv :=
  ⟨rfl, rfl, rfl⟩

/-- C8: in the sparse-distributed path the nested-dissection ordering (and
with it the separator tree and symbolic info) is computed exactly once per
solve over any positive number of iterations — in the loop's first
iteration, or inherited from the initializer when `ctrl.initialized` is
false and `ctrl.system = AUGMENTED_KKT` — and never again at any later
iteration, while the numeric frontal tree is re-initialized from `J`'s
values and refactored in every single iteration. -/
theorem ordering_computed_once (sys : KKTSystem) (ctrlInit : Bool)
    (K : ℕ) :
    orderingComputations sys ctrlInit (K + 1) = 1 ∧
    (∀ k, SparseStepEvent.nestedDissection ∉
      distSparseSolveEvents sys ctrlInit (k + 1)) ∧
    (∀ k, SparseStepEvent.frontTreeInit ∈
      distSparseSolveEvents sys ctrlInit k) ∧
    (∀ k, SparseStepEvent.regLDLFactor ∈
        distSparseSolveEvents sys ctrlInit k ∨
      SparseStepEvent.intraPivLDLFactor ∈
        distSparseSolveEvents sys ctrlInit k) := by
  refine ⟨?_, ?_, ?_, ?_⟩
  · cases sys <;> cases ctrlInit
    case AUGMENTED_KKT.false =>
      rw [orderingComputations]
      rw [sum_zero_range _ _ fun k => by simp [distSparseSolveEvents]]
      rfl
    all_goals
      rw [orderingComputations]
      rw [sum_indicator_range _ _ (by decide) fun k => by
        simp [distSparseSolveEvents]]
      rfl
  · intro k
    cases sys <;> simp [distSparseSolveEvents]
  · intro k
    cases sys <;>
      simp only [distSparseSolveEvents] <;>
      exact List.mem_append_right _ (by decide)
  · intro k
    cases sys
    case FULL_KKT =>
      exact Or.inl (by
        simp only [distSparseSolveEvents]
        exact List.mem_append_right _ (by decide))
    case AUGMENTED_KKT =>
      exact Or.inl (by
        simp only [distSparseSolveEvents]
        exact List.mem_append_right _ (by decide))
    case NORMAL_KKT =>
      exact Or.inr (by
        simp only [distSparseSolveEvents]
        exact List.mem_append_right _ (by decide))

/-- C9: each non-converged iteration's duality measure is
`mu = Dot(x,z)/n` and its centrality residual, computed by the source as
copy / diagonal-scale / shift, equals `x ∘ z - centering · mu · 1`
entrywise; and the Newton right-hand side of the step stage is assembled
from exactly these values together with the residuals of the convergence
check. -/
theorem rmu_centering_spec {m n : ℕ} (A : Matrix (Fin m) (Fin n) ℚ)
    (b : Vec m) (c : Vec n) (ctrl : IPFCtrl) (x : Vec n) (y : Vec m)
    (z : Vec n) (dx : Vec n) (dy : Vec m) (dz : Vec n) :
    muVal x z = dotV x z / (n : ℚ) ∧
    (∀ j, rmuCode ctrl x z j = x j * z j - ctrl.centering * muVal x z) ∧
    (SearchDirection A b c ctrl x y z dx dy dz ↔
      DirTriple ctrl.system A x z (rbVec A b x) (rcVec A c y z)
        (rmuCode ctrl x z) dx dy dz) :=
  ⟨rfl,
   fun j => by simp only [rmuCode, shiftV, diagonalScale]; ring,
   Iff.rfl⟩

/-- C10: in the sparse-distributed path, FULL_KKT and AUGMENTED_KKT solve
by a single substitution against the factored tree with no iterative
refinement, while NORMAL_KKT always solves through
`SolveWithIterativeRefinement` with a cap of `10` refinement iterations
and a minimum per-step residual-reduction factor of `2`; and the
NORMAL_KKT factorization is the plain intra-pivoted LDL with no pivot
tolerance or regularization. -/
theorem dist_sparse_solve_kinds :
    distSparseSolve .FULL_KKT = .directSolve ∧
    distSparseSolve .AUGMENTED_KKT = .directSolve ∧
    distSparseSolve .NORMAL_KKT = .iterativeRefinement 2 10 ∧
    ∀ m n epsilon maxNormJ,
      distSparseFactorization .NORMAL_KKT m n epsilon maxNormJ =
        .ldlIntraPiv :=
  ⟨rfl, rfl, rfl, fun _ _ _ _ => rfl⟩

end Theorems

end ElementalIPF
